import Mathlib

/-!
Verification of the `indentation` stylelint rule
(`src/rules/indentation/index.js`).

The rule is embedded shallowly: the PostCSS tree traversal (`eachInside`)
is represented by a pre-order visit list, each visited node carrying its
own data together with the data of its strict ancestors (nearest first)
and of its previous sibling.  The module-scope `hierarchyMap` becomes an
explicit association list threaded through the run, keyed by node
identity (a natural-number id).  The fallible regular-expression
extraction `/^(\s*)\S/.exec(...)[1]` is modelled with `Option`, and a
thrown `TypeError` is modelled by a `broken` flag that stops the
traversal.
-/

namespace Indentation

/-- Character class of the JavaScript regexp escape `\s` (ASCII part). -/
def isWs (c : Char) : Bool :=
  c = ' ' || c = '\t' || c = '\n' || c = '\r' || c = '\x0b' || c = '\x0c'

/-- lodash `repeat(s, n)`: `s` concatenated `n` times, `""` when `n < 1`. -/
def strRepeat (s : String) (n : Int) : String :=
  if n ≤ 0 then "" else String.join (List.replicate n.toNat s)

/-- The suffix of `s` that follows its last `'\n'` (the whole list when
there is no newline); this is `s.slice(s.lastIndexOf("\n") + 1)`. -/
def afterLastNL : List Char → List Char
  | [] => []
  | c :: rest =>
    if rest.contains '\n' then afterLastNL rest
    else if c = '\n' then rest else c :: rest

/-- String form of `afterLastNL`. -/
def afterLastNewline (s : String) : String :=
  String.mk (afterLastNL s.data)

/-- The list of suffixes following each `'\n'` of the input, in order:
one entry per newline occurrence, as visited by `styleSearch` with
target `"\n"`. -/
def nlSuffixes : List Char → List (List Char)
  | [] => []
  | c :: rest =>
    if c = '\n' then rest :: nlSuffixes rest else nlSuffixes rest

/-- `/^(\s*)\S/.exec(s)[1]`: the maximal leading whitespace run of `s`,
provided some non-whitespace character follows it; `none` when the match
fails (and the JavaScript code would throw a `TypeError` on `[1]`). -/
def leadingWsRun (s : List Char) : Option String :=
  let ws := s.takeWhile isWs
  if ws.length = s.length then none else some (String.mk ws)

/-- `a.indexOf(b) === 0`: `b` is a literal prefix of `a`. -/
def startsWithJS (a b : String) : Bool :=
  b.data.isPrefixOf a.data

/-- `s.indexOf("\n") !== -1`: the string contains a newline. -/
def containsNL (s : String) : Bool :=
  s.data.contains '\n'

/-- JavaScript string coercion of a possibly-undefined selector when it
is used as the argument of `String.prototype.indexOf`. -/
def jsSelector : Option String → String
  | some s => s
  | none => "undefined"

/-- A reference to a node as stored in the hierarchy map: its identity
and its `selector` attribute (absent on non-rule nodes and on root). -/
structure NodeRef where
  id : Nat
  selector : Option String
deriving DecidableEq, Repr

/-- A `hierarchyMap` record: `{ superordinate, level }`. -/
structure Entry where
  super : NodeRef
  level : Int
deriving DecidableEq, Repr

/-- The `hierarchyMap`, keyed by node identity; more recent insertions
shadow older ones, as `Map.prototype.set` overwrites. -/
abbrev HMap := List (Nat × Entry)

/-- `hierarchyMap.get` / `hierarchyMap.has`. -/
def hmFind : HMap → Nat → Option Entry
  | [], _ => none
  | (k', e) :: rest, k => if k' = k then some e else hmFind rest k

/-- `addNodeToHierarchy(node, superordinate, level)`:
`hierarchyMap.set(node, { superordinate, level })`. -/
def addNodeToHierarchy (m : HMap) (nodeId : Nat) (superordinate : NodeRef)
    (level : Int) : HMap :=
  (nodeId, ⟨superordinate, level⟩) :: m

/-- The attributes of one tree node that the rule reads. -/
structure NodeData where
  id : Nat
  type : String
  selector : Option String
  value : Option String
  before : String
  after : Option String
  startLine : Nat
  endLine : Nat
deriving DecidableEq, Repr

/-- One step of the `root.eachInside` visit: the node's data, the data
of its strict ancestors (parent first, root excluded), the data of its
previous sibling, and whether it is `root.first`. -/
structure Ctx where
  data : NodeData
  ancestors : List NodeData
  prev : Option NodeData
  isRootFirst : Bool
deriving DecidableEq, Repr

/-- The rule's configuration: `space` is the first argument (`none`
stands for the keyword `"tab"`), `except` and `hierarchicalSelectors`
come from the secondary options object. -/
structure Config where
  space : Option Nat
  except : List String
  hierarchicalSelectors : Bool
deriving DecidableEq, Repr

/-- `space === "tab"`. -/
def isTab (cfg : Config) : Bool := cfg.space.isNone

/-- `indentChar`: one tab, or `space` many spaces. -/
def indentChar (cfg : Config) : String :=
  match cfg.space with
  | none => "\t"
  | some n => strRepeat " " n

/-- `warningWord`. -/
def warningWord (cfg : Config) : String :=
  if isTab cfg then "tab" else "space"

/-- The numeric `space` value, read only in space mode. -/
def spaceCount (cfg : Config) : Int :=
  match cfg.space with
  | none => 0
  | some n => n

/-- Modelled from the spec: the shared util `optionsHaveException`
(missing from the sources) tests membership of the name in the
configuration's `except` set (§3 Configuration). -/
def optionsHaveException (cfg : Config) (name : String) : Bool :=
  cfg.except.contains name

/-- `legibleExpectation(level, line)`. -/
def legibleExpectation (cfg : Config) (level : Int) (line : Nat) : String :=
  let count : Int := if isTab cfg then level else level * spaceCount cfg
  let quantifiedWarningWord :=
    if count = 1 then warningWord cfg else warningWord cfg ++ "s"
  toString count ++ " " ++ quantifiedWarningWord ++ " at line " ++ toString line

/-- Modelled from the spec: `ruleMessages` (missing from the sources)
leaves the message text as written, so `messages.expected(x)` is the
string `"Expected indentation of " ++ x` (§4.4 message format). -/
def expectedMessage (cfg : Config) (level : Int) (line : Nat) : String :=
  "Expected indentation of " ++ legibleExpectation cfg level line

/-- One report sent to the result sink. -/
structure Violation where
  message : String
  line : Nat
  nodeId : Nat
deriving DecidableEq, Repr

/-- `indentationLevel(node, level)` unrolled over the ancestor chain:
the first list element is `node.parent` (an empty list means the parent
is the root), and `ntype` is the current node's `type`. -/
def indentationLevelAux (cfg : Config) (m : HMap) (ntype : String) :
    List NodeData → Int → Int
  | [], level => level
  | p :: rest, level =>
    let newLevel :=
      match hmFind m p.id with
      | some e => e.level + 1
      | none => indentationLevelAux cfg m p.type rest (level + 1)
    if optionsHaveException cfg "block" && ntype ≠ "decl" then newLevel - 1
    else newLevel

/-- `indentationLevel(node)`. -/
def indentationLevel (cfg : Config) (m : HMap) (v : Ctx) : Int :=
  indentationLevelAux cfg m v.data.type v.ancestors 0

/-- Outcome of the peer-search loop of `hierarchicalSelectorsLevel`. -/
inductive WalkResult where
  | found (e : Entry)
  | noEntry
  | gas
deriving DecidableEq, Repr

/-- The `while (maybePeer)` loop: follow superordinate links until an
entry whose superordinate's selector prefixes `nodeSel` is found
(`found`), or a candidate without an entry is reached (`noEntry`).
`gas` reports fuel exhaustion and never occurs for the fuel the run
supplies. -/
def peerWalk (m : HMap) (nodeSel : String) : Nat → NodeRef → WalkResult
  | 0, _ => .gas
  | fuel + 1, cur =>
    match hmFind m cur.id with
    | none => .noEntry
    | some e =>
      if startsWithJS nodeSel (jsSelector e.super.selector) then .found e
      else peerWalk m nodeSel fuel e.super

/-- `hierarchicalSelectorsLevel(node, nodeLevel)`: returns the resolved
level together with the entry that `addNodeToHierarchy` records for the
node (`none` when nothing is recorded). -/
def hierarchicalSelectorsLevel (fuel : Nat) (m : HMap) (node : NodeData)
    (prev : Option NodeData) (nodeLevel : Int) : Int × Option Entry :=
  match prev with
  | none => (nodeLevel, none)
  | some prevNode =>
    if node.type ≠ "rule" || prevNode.type ≠ "rule" then (nodeLevel, none)
    else
      let prevRef : NodeRef := ⟨prevNode.id, prevNode.selector⟩
      if startsWithJS (jsSelector node.selector) (jsSelector prevNode.selector) then
        let expectedLevel :=
          match hmFind m prevNode.id with
          | some e => e.level + 1
          | none => nodeLevel + 1
        (expectedLevel, some ⟨prevRef, expectedLevel⟩)
      else
        match peerWalk m (jsSelector node.selector) fuel prevRef with
        | .found e => (e.level, some ⟨e.super, e.level⟩)
        | _ => (nodeLevel, none)

/-- The body of the `styleSearch` callback shared by `checkValue` and
`checkSelector`, iterated over the suffixes following each newline of
the text; `k` is the 1-based match count.  The second component records
that the whitespace-run extraction failed and a `TypeError` was thrown
(reports made before the throw are kept). -/
def multilineGo (cfg : Config) (lvl : Int) (nid startLine : Nat) :
    Nat → List (List Char) → List Violation × Bool
  | _, [] => ([], false)
  | k, s :: rest =>
    match leadingWsRun s with
    | none => ([], true)
    | some ws =>
      let here :=
        if ws ≠ strRepeat (indentChar cfg) lvl then
          [⟨expectedMessage cfg lvl (startLine + k), startLine + k, nid⟩]
        else []
      let next := multilineGo cfg lvl nid startLine (k + 1) rest
      (here ++ next.1, next.2)

/-- `checkValue(node, declLevel)` on the node's `value` text. -/
def checkValue (cfg : Config) (nid startLine : Nat) (declLevel : Int)
    (value : String) : List Violation × Bool :=
  if containsNL value = false then ([], false)
  else
    let valueLevel :=
      if optionsHaveException cfg "value" then declLevel else declLevel + 1
    multilineGo cfg valueLevel nid startLine 1 (nlSuffixes value.data)

/-- `checkSelector(rule, ruleLevel)` on the rule's `selector` text. -/
def checkSelector (cfg : Config) (nid startLine : Nat) (ruleLevel : Int)
    (selector : String) : List Violation × Bool :=
  if containsNL selector = false then ([], false)
  else multilineGo cfg ruleLevel nid startLine 1 (nlSuffixes selector.data)

/-- The whitespace inspected before the node: the `before` check of the
returned rule function (source lines 64-85). -/
def beforeCheck (cfg : Config) (nodeLevel : Int) (v : Ctx) : List Violation :=
  let expectedWhitespace := strRepeat (indentChar cfg) nodeLevel
  let inspectBefore := v.isRootFirst || containsNL v.data.before
  if inspectBefore && afterLastNewline v.data.before ≠ expectedWhitespace then
    [⟨expectedMessage cfg nodeLevel v.data.startLine, v.data.startLine, v.data.id⟩]
  else []

/-- The whitespace inspected after the node's block (source lines
87-99); nodes without an `after` raw have nothing to check. -/
def afterCheck (cfg : Config) (nodeLevel : Int) (v : Ctx) : List Violation :=
  let expectedWhitespace := strRepeat (indentChar cfg) nodeLevel
  match v.data.after with
  | none => []
  | some a =>
    if containsNL a && afterLastNewline a ≠ expectedWhitespace then
      [⟨expectedMessage cfg nodeLevel v.data.endLine, v.data.endLine, v.data.id⟩]
    else []

/-- The superordinate recorded in non-hierarchical mode: `node.parent`
(the root object, carrying no selector, when the node is top level). -/
def parentRef (rootId : Nat) (v : Ctx) : NodeRef :=
  match v.ancestors with
  | [] => ⟨rootId, none⟩
  | p :: _ => ⟨p.id, p.selector⟩

/-- State of one check invocation: whether an exception was thrown (and
the traversal stopped), the reports accumulated so far, and the
hierarchy map. -/
structure RunState where
  broken : Bool
  viols : List Violation
  map : HMap
deriving DecidableEq, Repr

/-- The node types the rule inspects (source line 48). -/
def nodeTypes : List String := ["rule", "atrule", "decl"]

/-- The second half of the `root.eachInside` callback: given the
resolved `nodeLevel` and the hierarchy-map write `wopt` the level
resolution produced, record the write and run the four whitespace
checks. -/
def finishNode (cfg : Config) (nodeLevel : Int) (wopt : Option Entry)
    (st : RunState) (v : Ctx) : RunState :=
  let m1 :=
    match wopt with
    | none => st.map
    | some e => addNodeToHierarchy st.map v.data.id e.super e.level
  let valueRes :=
    match v.data.value with
    | none => ([], false)
    | some val => checkValue cfg v.data.id v.data.startLine nodeLevel val
  let selRes :=
    if valueRes.2 then ([], false)
    else
      match v.data.selector with
      | none => ([], false)
      | some sel => checkSelector cfg v.data.id v.data.startLine nodeLevel sel
  { broken := valueRes.2 || selRes.2
    viols := st.viols ++ beforeCheck cfg nodeLevel v ++ afterCheck cfg nodeLevel v
               ++ valueRes.1 ++ selRes.1
    map := m1 }

/-- The body of the `root.eachInside` callback for one visited node. -/
def processNode (cfg : Config) (rootId fuel : Nat) (st : RunState)
    (v : Ctx) : RunState :=
  if st.broken then st
  else if (nodeTypes.contains v.data.type) = false then st
  else
    let naive := indentationLevel cfg st.map v
    let levelWrite :=
      if cfg.hierarchicalSelectors then
        hierarchicalSelectorsLevel fuel st.map v.data v.prev naive
      else (naive, some ⟨parentRef rootId v, naive⟩)
    finishNode cfg levelWrite.1 levelWrite.2 st v

/-- The traversal: fold `processNode` over the visit list. -/
def runFrom (cfg : Config) (rootId fuel : Nat) :
    RunState → List Ctx → RunState
  | st, [] => st
  | st, v :: rest => runFrom cfg rootId fuel (processNode cfg rootId fuel st v) rest

/-- One invocation of the returned check function: a fold over the
pre-order visit list, starting from the hierarchy map `m0` that the
module-scope `hierarchyMap` holds when the invocation begins. -/
def runCheck (cfg : Config) (rootId : Nat) (l : List Ctx) (m0 : HMap) : RunState :=
  runFrom cfg rootId (l.length + 1) ⟨false, [], m0⟩ l

/-- What one invocation observably produces: whether it threw, and the
reports it delivered to its (per-invocation) result sink. -/
def observed (st : RunState) : Bool × List Violation :=
  (st.broken, st.viols)

/-- The ids of the visited nodes, in visit order. -/
def ctxIds (l : List Ctx) : List Nat :=
  l.map fun v => v.data.id

/-- Contract of the external traversal (spec §6): ids are fresh and
distinct from the root's, and the ancestors and the previous sibling of
every visited node were visited earlier.  `seen` collects the ids of
the nodes already visited. -/
def wfVisitFrom (rootId : Nat) (seen : List Nat) : List Ctx → Bool
  | [] => true
  | v :: rest =>
    !(seen.contains v.data.id) && (v.data.id != rootId)
      && v.ancestors.all (fun a => seen.contains a.id)
      && (match v.prev with
          | none => true
          | some p => seen.contains p.id)
      && wfVisitFrom rootId (v.data.id :: seen) rest

/-- Invariant of hierarchy maps built by a traversal: every entry's key
was visited, and its superordinate is either the root or a node visited
strictly earlier (strictly deeper in `seen`, which lists visited ids
most recent first). -/
def MapInv (rootId : Nat) (seen : List Nat) (m : HMap) : Prop :=
  ∀ k e, hmFind m k = some e → k ∈ seen ∧
    (e.super.id = rootId ∨
      (e.super.id ∈ seen ∧ List.indexOf k seen < List.indexOf e.super.id seen))

/-- The count in which a level is expressed in a message: the level
itself in tab mode, `level × indentSize` in space mode (§4.4). -/
def specUnitCount (cfg : Config) (level : Int) : Int :=
  if isTab cfg then level else level * spaceCount cfg

/-- The multi-line value check as the spec words it (§4.4): for every
newline occurrence (1-based ordinal `i + 1`), the leading whitespace
run following it must equal the indent unit repeated `expectedLevel`
times, each mismatch reported at the declaration's start line plus the
ordinal. -/
def specValueViolations (cfg : Config) (nid startLine : Nat) (declLevel : Int)
    (value : String) : List Violation :=
  if containsNL value = false then []
  else
    let expectedLevel :=
      if optionsHaveException cfg "value" then declLevel else declLevel + 1
    (List.enumFrom 1 (nlSuffixes value.data)).filterMap fun p =>
      match leadingWsRun p.2 with
      | none => none
      | some ws =>
        if ws = strRepeat (indentChar cfg) expectedLevel then none
        else some ⟨expectedMessage cfg expectedLevel (startLine + p.1),
                   startLine + p.1, nid⟩

section ConcreteData

/-- Space-mode configuration, two spaces, `"block"` exception only. -/
def cfgBlock : Config := ⟨some 2, ["block"], false⟩

/-- Tab-mode configuration with default options. -/
def cfgTab : Config := ⟨none, [], false⟩

/-- Space-mode configuration, two spaces, hierarchical selectors on. -/
def cfgHier : Config := ⟨some 2, [], true⟩

/-- A top-level rule `.a { ... }`. -/
def ruleA : NodeData :=
  ⟨0, "rule", some ".a", none, "", some "\n", 1, 5⟩

/-- A rule `.b { ... }` nested in `.a`. -/
def ruleB : NodeData :=
  ⟨1, "rule", some ".b", none, "\n  ", some "\n  ", 2, 4⟩

/-- A rule `.c { ... }` nested in `.b`. -/
def ruleC : NodeData :=
  ⟨2, "rule", some ".c", none, "\n    ", some "\n    ", 3, 3⟩

/-- Visit list of the three nested rules. -/
def nestedRules : List Ctx :=
  [⟨ruleA, [], none, true⟩,
   ⟨ruleB, [ruleA], none, false⟩,
   ⟨ruleC, [ruleB, ruleA], none, false⟩]

/-- Sibling rule with selector `"A"`. -/
def sibA : NodeData := ⟨10, "rule", some "A", none, "", some "\n", 1, 2⟩

/-- Sibling rule with selector `"A B"`. -/
def sibAB : NodeData := ⟨11, "rule", some "A B", none, "\n", some "\n", 3, 4⟩

/-- Sibling rule with selector `"A B C"`. -/
def sibABC : NodeData := ⟨12, "rule", some "A B C", none, "\n", some "\n", 5, 6⟩

/-- Sibling rule with selector `"A D"`. -/
def sibAD : NodeData := ⟨13, "rule", some "A D", none, "\n", some "\n", 7, 8⟩

/-- A rule with selector `".foo"`. -/
def ruleFoo : NodeData := ⟨20, "rule", some ".foo", none, "", some "\n", 1, 2⟩

/-- A sibling rule with selector `".foobar"`. -/
def ruleFoobar : NodeData := ⟨21, "rule", some ".foobar", none, "\n", some "\n", 3, 4⟩

/-- A declaration whose value spans two lines. -/
def declMulti : NodeData :=
  ⟨30, "decl", none, some "red,\n   blue", "\n  ", none, 2, 3⟩

/-- Visit list with one top-level rule holding one declaration. -/
def simpleTree : List Ctx :=
  [⟨ruleA, [], none, true⟩,
   ⟨declMulti, [ruleA], none, false⟩]

/-- Visit list of the four sibling rules `A`, `A B`, `A B C`, `A D`. -/
def hierSibs : List Ctx :=
  [⟨sibA, [], none, true⟩,
   ⟨sibAB, [], some sibA, false⟩,
   ⟨sibABC, [], some sibAB, false⟩,
   ⟨sibAD, [], some sibABC, false⟩]

end ConcreteData

theorem hmFind_add (m : HMap) (i : Nat) (s : NodeRef) (lvl : Int) (k : Nat) :
    hmFind (addNodeToHierarchy m i s lvl) k =
      if i = k then some ⟨s, lvl⟩ else hmFind m k := rfl

theorem afterLastNL_no_newline (s : List Char) (h : '\n' ∉ s) :
    afterLastNL s = s := by
  induction s with
  | nil => rfl
  | cons c rest ih =>
    have h1 : c ≠ '\n' := fun hc => h (hc ▸ List.mem_cons_self c rest)
    have h2 : '\n' ∉ rest := fun hr => h (List.mem_cons_of_mem c hr)
    have h3 : rest.contains '\n' = false := by simpa using h2
    simp only [afterLastNL, h3]
    simp [h1, ih h2]

theorem afterLastNL_last (t r : List Char) (h : '\n' ∉ r) :
    afterLastNL (t ++ '\n' :: r) = r := by
  induction t with
  | nil =>
    have h3 : r.contains '\n' = false := by simpa using h
    simp only [List.nil_append, afterLastNL, h3]
    simp
  | cons c t ih =>
    have hmem : (t ++ '\n' :: r).contains '\n' = true := by simp
    show (if (t ++ '\n' :: r).contains '\n' then afterLastNL (t ++ '\n' :: r)
          else if c = '\n' then t ++ '\n' :: r else c :: (t ++ '\n' :: r)) = r
    rw [hmem, if_pos rfl]
    exact ih

theorem leadingWsRun_isSome_iff (s : List Char) :
    (leadingWsRun s).isSome = true ↔ ∃ c ∈ s, isWs c = false := by
  constructor
  · intro hsome
    by_contra hno
    push_neg at hno
    have hall : ∀ c ∈ s, isWs c = true := by
      intro c hc
      have h1 := hno c hc
      cases hcw : isWs c
      · exact absurd hcw h1
      · rfl
    have heq : s.takeWhile isWs = s := List.takeWhile_eq_self_iff.mpr hall
    simp only [leadingWsRun, heq] at hsome
    simp at hsome
  · rintro ⟨c, hc, hf⟩
    have hne : s.takeWhile isWs ≠ s := by
      intro heq
      have := List.takeWhile_eq_self_iff.mp heq c hc
      simp [hf] at this
    have hlen : (s.takeWhile isWs).length ≠ s.length := by
      intro hl
      exact hne ((List.takeWhile_prefix isWs).eq_of_length hl)
    simp [leadingWsRun, hlen]

/-- C3 counterexample: in the tree `.a > .b > .c` (naive depths 0, 1, 2)
with the `"block"` exception, the level computed and recorded for the
depth-2 rule `.c` is `0`, not `2 - 1 = 1` as the claim would have it. -/
theorem block_exception_depth_counterexample :
    hmFind (runCheck cfgBlock 99 nestedRules []).map 2
      = some ⟨⟨1, some ".b"⟩, 0⟩ ∧ ((0 : Int) ≠ 2 - 1) := by
  constructor
  · rfl
  · decide

/-- C3 amended: with the `"block"` exception, a node whose parent is in
the hierarchy map gets `entry.level + 1` as candidate, then non-`decl`
nodes are decremented to their parent's own recorded level while
declarations keep the increment; nodes whose parent is the root return
level `0` untouched. -/
theorem block_exception_amended (cfg : Config) (m : HMap) (ntype : String)
    (p : NodeData) (rest : List NodeData) (e : Entry)
    (hb : optionsHaveException cfg "block" = true)
    (hp : hmFind m p.id = some e) :
    (ntype ≠ "decl" → indentationLevelAux cfg m ntype (p :: rest) 0 = e.level) ∧
    (ntype = "decl" → indentationLevelAux cfg m ntype (p :: rest) 0 = e.level + 1) ∧
    (∀ t, indentationLevelAux cfg m t [] 0 = 0) := by
  refine ⟨?_, ?_, fun t => rfl⟩
  · intro hd
    simp only [indentationLevelAux, hp, hb, hd]
    simp [hd]
  · intro hd
    simp [indentationLevelAux, hp, hb, hd]

theorem block_exception_amended_witness :
    ("rule" ≠ "decl" →
      indentationLevelAux cfgBlock [(5, ⟨⟨4, none⟩, 3⟩)] "rule"
        (⟨5, "rule", some ".x", none, "", none, 1, 1⟩ :: []) 0 = 3) ∧
    ("rule" = "decl" →
      indentationLevelAux cfgBlock [(5, ⟨⟨4, none⟩, 3⟩)] "rule"
        (⟨5, "rule", some ".x", none, "", none, 1, 1⟩ :: []) 0 = 3 + 1) ∧
    (∀ t, indentationLevelAux cfgBlock [(5, ⟨⟨4, none⟩, 3⟩)] t [] 0 = 0) :=
  block_exception_amended cfgBlock [(5, ⟨⟨4, none⟩, 3⟩)] "rule"
    ⟨5, "rule", some ".x", none, "", none, 1, 1⟩ [] ⟨⟨4, none⟩, 3⟩
    (by decide) rfl

/-- C7: the subordinate test of the hierarchical resolver is a raw
substring-from-offset-0 test: a sibling rule `.foobar` following `.foo`
is classified as a direct subordinate and receives the preceding rule's
recorded level plus one (or the naive level plus one when the preceding
rule has no entry). -/
theorem raw_prefix_subordination (fuel : Nat) (m : HMap)
    (node prevNode : NodeData) (L : Int)
    (hn : node.type = "rule") (hns : node.selector = some ".foobar")
    (hp : prevNode.type = "rule") (hps : prevNode.selector = some ".foo") :
    (∀ e, hmFind m prevNode.id = some e →
      hierarchicalSelectorsLevel fuel m node (some prevNode) L
        = (e.level + 1, some ⟨⟨prevNode.id, prevNode.selector⟩, e.level + 1⟩)) ∧
    (hmFind m prevNode.id = none →
      hierarchicalSelectorsLevel fuel m node (some prevNode) L
        = (L + 1, some ⟨⟨prevNode.id, prevNode.selector⟩, L + 1⟩)) := by
  have hpre : startsWithJS (jsSelector node.selector)
      (jsSelector prevNode.selector) = true := by
    rw [hns, hps]; decide
  constructor
  · intro e he
    simp [hierarchicalSelectorsLevel, hn, hp, hpre, he]
  · intro he
    simp [hierarchicalSelectorsLevel, hn, hp, hpre, he]

theorem raw_prefix_subordination_witness :
    (∀ e, hmFind [(20, ⟨⟨19, none⟩, 4⟩)] ruleFoo.id = some e →
      hierarchicalSelectorsLevel 3 [(20, ⟨⟨19, none⟩, 4⟩)] ruleFoobar
        (some ruleFoo) 0
        = (e.level + 1, some ⟨⟨ruleFoo.id, ruleFoo.selector⟩, e.level + 1⟩)) ∧
    (hmFind [(20, ⟨⟨19, none⟩, 4⟩)] ruleFoo.id = none →
      hierarchicalSelectorsLevel 3 [(20, ⟨⟨19, none⟩, 4⟩)] ruleFoobar
        (some ruleFoo) 0
        = (0 + 1, some ⟨⟨ruleFoo.id, ruleFoo.selector⟩, 0 + 1⟩)) :=
  raw_prefix_subordination 3 [(20, ⟨⟨19, none⟩, 4⟩)] ruleFoobar ruleFoo 0
    rfl rfl rfl rfl

/-- C2: with hierarchical selectors, four consecutive sibling rules
`A`, `A B`, `A B C`, `A D` at naive level `L` resolve to levels
`L, L+1, L+2, L+1`: the fourth walks the superordinate chain past the
third and is recorded as a peer of the second, with the second rule's
superordinate and level. -/
theorem hierarchical_chain_walk_levels (fuel : Nat) (m : HMap) (L : Int)
    (hfuel : 2 ≤ fuel) (hA : hmFind m sibA.id = none) :
    hierarchicalSelectorsLevel fuel m sibA none L = (L, none) ∧
    hierarchicalSelectorsLevel fuel m sibAB (some sibA) L
      = (L + 1, some ⟨⟨sibA.id, sibA.selector⟩, L + 1⟩) ∧
    hierarchicalSelectorsLevel fuel
        (addNodeToHierarchy m sibAB.id ⟨sibA.id, sibA.selector⟩ (L + 1))
        sibABC (some sibAB) L
      = (L + 2, some ⟨⟨sibAB.id, sibAB.selector⟩, L + 2⟩) ∧
    hierarchicalSelectorsLevel fuel
        (addNodeToHierarchy
          (addNodeToHierarchy m sibAB.id ⟨sibA.id, sibA.selector⟩ (L + 1))
          sibABC.id ⟨sibAB.id, sibAB.selector⟩ (L + 2))
        sibAD (some sibABC) L
      = (L + 1, some ⟨⟨sibA.id, sibA.selector⟩, L + 1⟩) := by
  obtain ⟨f, rfl⟩ : ∃ f, fuel = f + 2 := ⟨fuel - 2, by omega⟩
  have hA' : hmFind m 10 = none := hA
  have e2 : L + 1 + 1 = L + 2 := by ring
  refine ⟨rfl, ?_, ?_, ?_⟩
  · have hpre : startsWithJS "A B" "A" = true := by decide
    simp [hierarchicalSelectorsLevel, sibA, sibAB, jsSelector, hpre, hA']
  · have hpre : startsWithJS "A B C" "A B" = true := by decide
    simp [hierarchicalSelectorsLevel, sibA, sibAB, sibABC, jsSelector, hpre,
      addNodeToHierarchy, hmFind, e2]
  · have hpre : startsWithJS "A D" "A B C" = false := by decide
    have hpre2 : startsWithJS "A D" "A B" = false := by decide
    have hpre3 : startsWithJS "A D" "A" = true := by decide
    have hsucc : f + 2 = Nat.succ (Nat.succ f) := rfl
    simp [hierarchicalSelectorsLevel, sibA, sibAB, sibABC, sibAD, jsSelector,
      hpre, hpre2, hpre3, addNodeToHierarchy, hsucc, peerWalk, hmFind]

theorem hierarchical_chain_walk_levels_witness :
    hierarchicalSelectorsLevel 5 [] sibA none 0 = (0, none) ∧
    hierarchicalSelectorsLevel 5 [] sibAB (some sibA) 0
      = (0 + 1, some ⟨⟨sibA.id, sibA.selector⟩, 0 + 1⟩) ∧
    hierarchicalSelectorsLevel 5
        (addNodeToHierarchy [] sibAB.id ⟨sibA.id, sibA.selector⟩ (0 + 1))
        sibABC (some sibAB) 0
      = (0 + 2, some ⟨⟨sibAB.id, sibAB.selector⟩, 0 + 2⟩) ∧
    hierarchicalSelectorsLevel 5
        (addNodeToHierarchy
          (addNodeToHierarchy [] sibAB.id ⟨sibA.id, sibA.selector⟩ (0 + 1))
          sibABC.id ⟨sibAB.id, sibAB.selector⟩ (0 + 2))
        sibAD (some sibABC) 0
      = (0 + 1, some ⟨⟨sibA.id, sibA.selector⟩, 0 + 1⟩) :=
  hierarchical_chain_walk_levels 5 [] 0 (by decide) rfl

theorem multilineGo_eq_spec (cfg : Config) (lvl : Int) (nid line : Nat)
    (sfxs : List (List Char)) :
    ∀ k : Nat, (∀ s ∈ sfxs, (leadingWsRun s).isSome = true) →
      multilineGo cfg lvl nid line k sfxs =
        ((List.enumFrom k sfxs).filterMap fun p =>
          (match leadingWsRun p.2 with
           | none => none
           | some ws =>
             if ws = strRepeat (indentChar cfg) lvl then none
             else some ⟨expectedMessage cfg lvl (line + p.1), line + p.1, nid⟩ :
            Option Violation),
         false) := by
  induction sfxs with
  | nil => intro k _; rfl
  | cons s rest ih =>
    intro k h
    obtain ⟨ws, hws⟩ := Option.isSome_iff_exists.mp (h s (by simp))
    have ihk := ih (k + 1) (fun x hx => h x (by simp [hx]))
    simp only [multilineGo, hws, ihk, List.enumFrom, List.filterMap]
    by_cases hw : ws = strRepeat (indentChar cfg) lvl
    · simp [hw]
    · simp [hw]

theorem multilineGo_err_false (cfg : Config) (lvl : Int) (nid line : Nat)
    (sfxs : List (List Char)) (k : Nat)
    (h : ∀ s ∈ sfxs, (leadingWsRun s).isSome = true) :
    (multilineGo cfg lvl nid line k sfxs).2 = false := by
  rw [multilineGo_eq_spec cfg lvl nid line sfxs k h]

theorem multilineGo_message (cfg : Config) (lvl : Int) (nid line : Nat)
    (sfxs : List (List Char)) :
    ∀ k : Nat, ∀ w ∈ (multilineGo cfg lvl nid line k sfxs).1,
      w.message = expectedMessage cfg lvl w.line := by
  induction sfxs with
  | nil => intro k w hw; simp [multilineGo] at hw
  | cons s rest ih =>
    intro k w hw
    simp only [multilineGo] at hw
    cases hws : leadingWsRun s with
    | none => rw [hws] at hw; simp at hw
    | some ws =>
      rw [hws] at hw
      simp only [List.mem_append] at hw
      rcases hw with hw | hw
      · by_cases hne : ws ≠ strRepeat (indentChar cfg) lvl
        · rw [if_pos hne] at hw
          simp at hw
          subst hw
          rfl
        · rw [if_neg hne] at hw
          simp at hw
      · exact ih (k + 1) w hw

/-- C4: the multi-line value check emits nothing when the value has no
newline; otherwise (whenever the extraction is defined) it produces,
for each newline (1-based ordinal), exactly one violation at the
declaration's start line plus the ordinal whenever the whitespace run
after that newline differs from the indent unit repeated
`expectedLevel` times, where `expectedLevel` is the declaration's level
with the `"value"` exception and the level plus one otherwise. -/
theorem checkValue_spec (cfg : Config) (nid line : Nat) (lvl : Int)
    (value : String) :
    (containsNL value = false → checkValue cfg nid line lvl value = ([], false)) ∧
    ((∀ s ∈ nlSuffixes value.data, (leadingWsRun s).isSome = true) →
      checkValue cfg nid line lvl value
        = (specValueViolations cfg nid line lvl value, false)) := by
  constructor
  · intro h
    simp [checkValue, h]
  · intro h
    by_cases hc : containsNL value = false
    · simp [checkValue, specValueViolations, hc]
    · rw [checkValue, specValueViolations, if_neg hc, if_neg hc]
      exact multilineGo_eq_spec cfg _ nid line (nlSuffixes value.data) 1 h

theorem checkValue_spec_witness :
    (containsNL "red,\n   blue" = false →
      checkValue cfgBlock 30 2 1 "red,\n   blue" = ([], false)) ∧
    ((∀ s ∈ nlSuffixes "red,\n   blue".data, (leadingWsRun s).isSome = true) →
      checkValue cfgBlock 30 2 1 "red,\n   blue"
        = (specValueViolations cfgBlock 30 2 1 "red,\n   blue", false)) :=
  checkValue_spec cfgBlock 30 2 1 "red,\n   blue"

/-- C9: the multi-line value and selector checks are total exactly when
every newline of the text is eventually followed by a non-whitespace
character; on `"a\n "`, where the final newline is followed only by
whitespace, both checks abort with an error. -/
theorem multiline_totality (cfg : Config) (nid line : Nat) (lvl : Int) :
    (∀ text : String, (∀ s ∈ nlSuffixes text.data, ∃ c ∈ s, isWs c = false) →
      (checkValue cfg nid line lvl text).2 = false ∧
      (checkSelector cfg nid line lvl text).2 = false) ∧
    (checkValue cfg nid line lvl "a\n ").2 = true ∧
    (checkSelector cfg nid line lvl "a\n ").2 = true := by
  refine ⟨?_, rfl, rfl⟩
  intro text h
  have h' : ∀ s ∈ nlSuffixes text.data, (leadingWsRun s).isSome = true :=
    fun s hs => (leadingWsRun_isSome_iff s).mpr (h s hs)
  constructor
  · by_cases hc : containsNL text = false
    · simp [checkValue, hc]
    · rw [checkValue, if_neg hc]
      exact multilineGo_err_false cfg _ nid line _ 1 h'
  · by_cases hc : containsNL text = false
    · simp [checkSelector, hc]
    · rw [checkSelector, if_neg hc]
      exact multilineGo_err_false cfg _ nid line _ 1 h'

theorem multiline_totality_witness :
    ((checkValue cfgTab 7 1 0 "x\ny").2 = false ∧
      (checkSelector cfgTab 7 1 0 "x\ny").2 = false) ∧
    (checkValue cfgTab 7 1 0 "a\n ").2 = true ∧
    (checkSelector cfgTab 7 1 0 "a\n ").2 = true :=
  ⟨(multiline_totality cfgTab 7 1 0).1 "x\ny" (by decide),
   (multiline_totality cfgTab 7 1 0).2⟩

/-- C5: the leading-whitespace check runs exactly when the node is
`root.first` or its `before` text contains a newline; the compared
substring is everything after the last newline of `before` (the whole
text when it has no newline), and one violation at the node's start
line is emitted exactly when that substring differs from the indent
unit repeated `level` times. -/
theorem beforeCheck_spec (cfg : Config) (lvl : Int) (v : Ctx) :
    (beforeCheck cfg lvl v ≠ [] ↔
      ((v.isRootFirst = true ∨ containsNL v.data.before = true) ∧
        afterLastNewline v.data.before ≠ strRepeat (indentChar cfg) lvl)) ∧
    (∀ w ∈ beforeCheck cfg lvl v,
      w = ⟨expectedMessage cfg lvl v.data.startLine, v.data.startLine,
           v.data.id⟩) ∧
    (containsNL v.data.before = false →
      afterLastNewline v.data.before = v.data.before) ∧
    (∀ t r : List Char, '\n' ∉ r →
      afterLastNewline (String.mk (t ++ '\n' :: r)) = String.mk r) := by
  refine ⟨?_, ?_, ?_, ?_⟩
  · unfold beforeCheck
    by_cases h1 : (v.isRootFirst || containsNL v.data.before) = true
    · by_cases h2 : afterLastNewline v.data.before
          ≠ strRepeat (indentChar cfg) lvl
      · rw [if_pos (by simp [h1, h2])]
        simpa [h2] using Bool.or_eq_true _ _ |>.mp h1
      · rw [if_neg (by simp [h2])]
        simp [h2]
    · rw [if_neg (by simp [h1])]
      have := Bool.or_eq_false_iff.mp (Bool.not_eq_true _ |>.mp h1)
      simp [this.1, this.2]
  · intro w hw
    unfold beforeCheck at hw
    by_cases h : ((v.isRootFirst || containsNL v.data.before)
        && afterLastNewline v.data.before ≠ strRepeat (indentChar cfg) lvl)
        = true
    · rw [if_pos h] at hw
      simpa using hw
    · rw [if_neg h] at hw
      simp at hw
  · intro h
    have : '\n' ∉ v.data.before.data := by
      simpa [containsNL] using h
    show String.mk (afterLastNL v.data.before.data) = v.data.before
    rw [afterLastNL_no_newline _ this]
  · intro t r h
    show String.mk (afterLastNL (t ++ '\n' :: r)) = String.mk r
    rw [afterLastNL_last t r h]

theorem beforeCheck_spec_witness :
    (beforeCheck cfgBlock 1 ⟨ruleB, [ruleA], none, false⟩ ≠ [] ↔
      ((false = true ∨ containsNL ruleB.before = true) ∧
        afterLastNewline ruleB.before ≠ strRepeat (indentChar cfgBlock) 1)) ∧
    (∀ w ∈ beforeCheck cfgBlock 1 ⟨ruleB, [ruleA], none, false⟩,
      w = ⟨expectedMessage cfgBlock 1 ruleB.startLine, ruleB.startLine,
           ruleB.id⟩) ∧
    (containsNL ruleB.before = false →
      afterLastNewline ruleB.before = ruleB.before) ∧
    (∀ t r : List Char, '\n' ∉ r →
      afterLastNewline (String.mk (t ++ '\n' :: r)) = String.mk r) :=
  beforeCheck_spec cfgBlock 1 ⟨ruleB, [ruleA], none, false⟩

theorem beforeCheck_message (cfg : Config) (lvl : Int) (v : Ctx) :
    ∀ w ∈ beforeCheck cfg lvl v, w.message = expectedMessage cfg lvl w.line := by
  intro w hw
  rcases (beforeCheck_spec cfg lvl v).2.1 w hw with rfl
  rfl

theorem afterCheck_message (cfg : Config) (lvl : Int) (v : Ctx) :
    ∀ w ∈ afterCheck cfg lvl v, w.message = expectedMessage cfg lvl w.line := by
  intro w hw
  unfold afterCheck at hw
  rcases hv : v.data.after with _ | a
  · rw [hv] at hw
    simp at hw
  · rw [hv] at hw
    dsimp only at hw
    by_cases h : (containsNL a
        && decide (afterLastNewline a ≠ strRepeat (indentChar cfg) lvl)) = true
    · rw [if_pos h] at hw
      simp at hw
      subst hw
      rfl
    · rw [if_neg h] at hw
      simp at hw

theorem checkValue_message (cfg : Config) (nid line : Nat) (lvl : Int)
    (value : String) :
    ∀ w ∈ (checkValue cfg nid line lvl value).1,
      ∃ l : Int, w.message = expectedMessage cfg l w.line := by
  intro w hw
  unfold checkValue at hw
  by_cases hc : containsNL value = false
  · rw [if_pos hc] at hw
    simp at hw
  · rw [if_neg hc] at hw
    exact ⟨_, multilineGo_message cfg _ nid line _ 1 w hw⟩

theorem checkSelector_message (cfg : Config) (nid line : Nat) (lvl : Int)
    (selector : String) :
    ∀ w ∈ (checkSelector cfg nid line lvl selector).1,
      w.message = expectedMessage cfg lvl w.line := by
  intro w hw
  unfold checkSelector at hw
  by_cases hc : containsNL selector = false
  · rw [if_pos hc] at hw
    simp at hw
  · rw [if_neg hc] at hw
    exact multilineGo_message cfg lvl nid line _ 1 w hw

theorem expectedMessage_form (cfg : Config) (lvl : Int) (ln : Nat) :
    expectedMessage cfg lvl ln =
      "Expected indentation of " ++ toString (specUnitCount cfg lvl) ++ " "
        ++ warningWord cfg ++ (if specUnitCount cfg lvl = 1 then "" else "s")
        ++ " at line " ++ toString ln := by
  unfold expectedMessage legibleExpectation specUnitCount
  by_cases h : (if isTab cfg then lvl else lvl * spaceCount cfg) = 1
  · rw [if_pos h]
    simp only [h, if_pos rfl]
    simp [String.append_assoc]
  · rw [if_neg h]
    simp only [if_neg h]
    simp [String.append_assoc]

theorem expectedMessage_form_exists (cfg : Config) (w : Violation) (l : Int)
    (h : w.message = expectedMessage cfg l w.line) :
    ∃ lvl : Int, w.message =
      "Expected indentation of " ++ toString (specUnitCount cfg lvl) ++ " "
        ++ warningWord cfg ++ (if specUnitCount cfg lvl = 1 then "" else "s")
        ++ " at line " ++ toString w.line :=
  ⟨l, by rw [h, expectedMessage_form]⟩

theorem processNode_viols_cases (cfg : Config) (rootId fuel : Nat)
    (st : RunState) (v : Ctx) :
    (processNode cfg rootId fuel st v).viols = st.viols ∨
    ∃ L : Int, (processNode cfg rootId fuel st v).viols
      = st.viols ++ beforeCheck cfg L v ++ afterCheck cfg L v
          ++ (match v.data.value with
              | none => (([] : List Violation), false)
              | some val => checkValue cfg v.data.id v.data.startLine L val).1
          ++ (if (match v.data.value with
                  | none => (([] : List Violation), false)
                  | some val =>
                    checkValue cfg v.data.id v.data.startLine L val).2 then
                (([] : List Violation), false)
              else match v.data.selector with
                   | none => (([] : List Violation), false)
                   | some sel =>
                     checkSelector cfg v.data.id v.data.startLine L sel).1 := by
  unfold processNode
  split
  · exact Or.inl rfl
  · split
    · exact Or.inl rfl
    · exact Or.inr ⟨_, rfl⟩

/-- C6: every violation a node contributes carries a message of the
exact form `"Expected indentation of <N> <unit>[s] at line <L>"`, where
`N` is the level in tab mode and level times the indent size in space
mode, pluralized exactly when `N ≠ 1`; in particular the tab-mode
level-0 message reads `"Expected indentation of 0 tabs at line 7"`. -/
theorem violation_message_format (cfg : Config) (rootId fuel : Nat)
    (st : RunState) (v : Ctx) :
    (∀ w ∈ (processNode cfg rootId fuel st v).viols, w ∈ st.viols ∨
      ∃ lvl : Int, w.message =
        "Expected indentation of " ++ toString (specUnitCount cfg lvl) ++ " "
          ++ warningWord cfg
          ++ (if specUnitCount cfg lvl = 1 then "" else "s")
          ++ " at line " ++ toString w.line) ∧
    expectedMessage cfgTab 0 7 = "Expected indentation of 0 tabs at line 7" := by
  constructor
  · intro w hw
    rcases processNode_viols_cases cfg rootId fuel st v with hc | ⟨L, hc⟩
    · rw [hc] at hw
      exact Or.inl hw
    · rw [hc] at hw
      simp only [List.mem_append] at hw
      rcases hw with (((hw | hw) | hw) | hw) | hw
      · exact Or.inl hw
      · exact Or.inr (expectedMessage_form_exists cfg w L
          (beforeCheck_message cfg L v w hw))
      · exact Or.inr (expectedMessage_form_exists cfg w L
          (afterCheck_message cfg L v w hw))
      · rcases hv : v.data.value with _ | val
        · rw [hv] at hw
          simp at hw
        · rw [hv] at hw
          dsimp only at hw
          obtain ⟨l, hl⟩ := checkValue_message cfg v.data.id
            v.data.startLine L val w hw
          exact Or.inr (expectedMessage_form_exists cfg w l hl)
      · rcases hvv : v.data.value with _ | val
        · rw [hvv] at hw
          dsimp only at hw
          rcases hs : v.data.selector with _ | sel
          · rw [hs] at hw
            simp at hw
          · rw [hs] at hw
            dsimp only at hw
            exact Or.inr (expectedMessage_form_exists cfg w L
              (checkSelector_message cfg v.data.id v.data.startLine
                L sel w hw))
        · rw [hvv] at hw
          dsimp only at hw
          split at hw
          · simp at hw
          · rcases hs : v.data.selector with _ | sel
            · rw [hs] at hw
              simp at hw
            · rw [hs] at hw
              dsimp only at hw
              exact Or.inr (expectedMessage_form_exists cfg w L
                (checkSelector_message cfg v.data.id v.data.startLine
                  L sel w hw))
  · rfl

theorem finishNode_map_cases (cfg : Config) (L : Int) (wopt : Option Entry)
    (st : RunState) (v : Ctx) :
    (wopt = none ∧ (finishNode cfg L wopt st v).map = st.map) ∨
    ∃ e : Entry, wopt = some e ∧
      (finishNode cfg L wopt st v).map = (v.data.id, e) :: st.map := by
  rcases wopt with _ | e
  · exact Or.inl ⟨rfl, rfl⟩
  · exact Or.inr ⟨e, rfl, rfl⟩

theorem processNode_map_cases (cfg : Config) (rootId fuel : Nat)
    (st : RunState) (v : Ctx) :
    (processNode cfg rootId fuel st v).map = st.map ∨
    ∃ e : Entry,
      (processNode cfg rootId fuel st v).map = (v.data.id, e) :: st.map := by
  unfold processNode
  split
  · exact Or.inl rfl
  split
  · exact Or.inl rfl
  rcases finishNode_map_cases cfg _ _ st v with ⟨_, h⟩ | ⟨e, _, h⟩
  · exact Or.inl h
  · exact Or.inr ⟨e, h⟩

theorem processNode_map_other (cfg : Config) (rootId fuel : Nat)
    (st : RunState) (v : Ctx) (k : Nat) (hk : k ≠ v.data.id) :
    hmFind (processNode cfg rootId fuel st v).map k = hmFind st.map k := by
  rcases processNode_map_cases cfg rootId fuel st v with h | ⟨e, h⟩
  · rw [h]
  · rw [h]
    show (if v.data.id = k then some e else hmFind st.map k) = hmFind st.map k
    rw [if_neg (fun hh => hk hh.symm)]

theorem ctxIds_cons (v : Ctx) (rest : List Ctx) :
    ctxIds (v :: rest) = v.data.id :: ctxIds rest := rfl

theorem runFrom_map_other (cfg : Config) (rootId fuel : Nat) :
    ∀ (l : List Ctx) (st : RunState) (k : Nat), k ∉ ctxIds l →
      hmFind (runFrom cfg rootId fuel st l).map k = hmFind st.map k := by
  intro l
  induction l with
  | nil => intro st k _; rfl
  | cons v rest ih =>
    intro st k hk
    rw [ctxIds_cons] at hk
    simp only [List.mem_cons, not_or] at hk
    show hmFind (runFrom cfg rootId fuel
      (processNode cfg rootId fuel st v) rest).map k = _
    rw [ih _ k hk.2, processNode_map_other cfg rootId fuel st v k hk.1]

theorem wfVisitFrom_cons (rootId : Nat) (seen : List Nat) (v : Ctx)
    (rest : List Ctx) :
    wfVisitFrom rootId seen (v :: rest) = true ↔
      v.data.id ∉ seen ∧ v.data.id ≠ rootId ∧
      (∀ a ∈ v.ancestors, a.id ∈ seen) ∧
      (∀ p, v.prev = some p → p.id ∈ seen) ∧
      wfVisitFrom rootId (v.data.id :: seen) rest = true := by
  rcases hp : v.prev with _ | p
  · simp [wfVisitFrom, hp, List.all_eq_true, and_assoc]
  · simp [wfVisitFrom, hp, List.all_eq_true, and_assoc]

theorem wf_seen_disjoint (rootId : Nat) :
    ∀ (l : List Ctx) (seen : List Nat), wfVisitFrom rootId seen l = true →
      (∀ x ∈ seen, x ∉ ctxIds l) ∧ rootId ∉ ctxIds l := by
  intro l
  induction l with
  | nil =>
    intro seen _
    exact ⟨fun x _ hx => by simp [ctxIds] at hx, by simp [ctxIds]⟩
  | cons v rest ih =>
    intro seen h
    obtain ⟨h1, h2, _, _, h5⟩ := (wfVisitFrom_cons rootId seen v rest).mp h
    have ihr := ih (v.data.id :: seen) h5
    constructor
    · intro x hx
      rw [ctxIds_cons]
      simp only [List.mem_cons, not_or]
      exact ⟨fun he => h1 (he ▸ hx), ihr.1 x (by simp [hx])⟩
    · rw [ctxIds_cons]
      simp only [List.mem_cons, not_or]
      exact ⟨fun he => h2 he.symm, ihr.2⟩

theorem wf_middle (rootId : Nat) :
    ∀ (l1 : List Ctx) (seen : List Nat) (v : Ctx) (l2 : List Ctx),
      wfVisitFrom rootId seen (l1 ++ v :: l2) = true →
      v.data.id ∉ seen ∧ v.data.id ∉ ctxIds l1 := by
  intro l1
  induction l1 with
  | nil =>
    intro seen v l2 h
    obtain ⟨h1, _, _, _, _⟩ := (wfVisitFrom_cons rootId seen v l2).mp h
    exact ⟨h1, by simp [ctxIds]⟩
  | cons w l1 ih =>
    intro seen v l2 h
    rw [List.cons_append] at h
    obtain ⟨_, _, _, _, h5⟩ := (wfVisitFrom_cons rootId seen w (l1 ++ v :: l2)).mp h
    obtain ⟨hv1, hv2⟩ := ih (w.data.id :: seen) v l2 h5
    simp only [List.mem_cons, not_or] at hv1
    constructor
    · exact hv1.2
    · rw [ctxIds_cons]
      simp only [List.mem_cons, not_or]
      exact ⟨hv1.1, hv2⟩

/-- C8: within one traversal, the hierarchy-map entry for a node is
written at most once: when a node comes to be processed, the map still
holds whatever the initial map held at its key (nothing from this run),
and processing a node can only write at that node's own key. -/
theorem hierarchy_write_once (cfg : Config) (rootId fuel : Nat) (m0 : HMap)
    (l1 : List Ctx) (v : Ctx) (l2 : List Ctx)
    (h : wfVisitFrom rootId [] (l1 ++ v :: l2) = true) :
    hmFind (runFrom cfg rootId fuel ⟨false, [], m0⟩ l1).map v.data.id
      = hmFind m0 v.data.id ∧
    ∀ (st : RunState) (k : Nat), k ≠ v.data.id →
      hmFind (processNode cfg rootId fuel st v).map k = hmFind st.map k := by
  constructor
  · have hv := (wf_middle rootId l1 [] v l2 h).2
    exact runFrom_map_other cfg rootId fuel l1 ⟨false, [], m0⟩ v.data.id hv
  · intro st k hk
    exact processNode_map_other cfg rootId fuel st v k hk

theorem hierarchy_write_once_witness :
    (hmFind (runFrom cfgBlock 99 4 ⟨false, [], []⟩
        [⟨ruleA, [], none, true⟩, ⟨ruleB, [ruleA], none, false⟩]).map
        ruleC.id = hmFind ([] : HMap) ruleC.id) ∧
    ∀ (st : RunState) (k : Nat), k ≠ ruleC.id →
      hmFind (processNode cfgBlock 99 4 st
        ⟨ruleC, [ruleB, ruleA], none, false⟩).map k = hmFind st.map k :=
  hierarchy_write_once cfgBlock 99 4 []
    [⟨ruleA, [], none, true⟩, ⟨ruleB, [ruleA], none, false⟩]
    ⟨ruleC, [ruleB, ruleA], none, false⟩ [] (by decide)

theorem hmFind_cons (k' : Nat) (e : Entry) (m : HMap) (k : Nat) :
    hmFind ((k', e) :: m) k = if k' = k then some e else hmFind m k := rfl

theorem MapInv_nil (rootId : Nat) (seen : List Nat) :
    MapInv rootId seen ([] : HMap) := by
  intro k e hk
  simp [hmFind] at hk

theorem MapInv_root_none (rootId : Nat) (seen : List Nat) (m : HMap)
    (hm : MapInv rootId seen m) (hroot : rootId ∉ seen) :
    hmFind m rootId = none := by
  rcases hf : hmFind m rootId with _ | e
  · rfl
  · exact absurd (hm rootId e hf).1 hroot

theorem MapInv_cons (rootId : Nat) (seen : List Nat) (m : HMap) (x : Nat)
    (hm : MapInv rootId seen m) (hx : x ∉ seen) :
    MapInv rootId (x :: seen) m := by
  intro k e hk
  obtain ⟨hkm, hsup⟩ := hm k e hk
  have hkx : x ≠ k := fun h => hx (h ▸ hkm)
  refine ⟨List.mem_cons_of_mem x hkm, ?_⟩
  rcases hsup with hr | ⟨hsm, hlt⟩
  · exact Or.inl hr
  · have hsx : x ≠ e.super.id := fun h => hx (h ▸ hsm)
    refine Or.inr ⟨List.mem_cons_of_mem x hsm, ?_⟩
    rw [List.indexOf_cons_ne seen hkx, List.indexOf_cons_ne seen hsx]
    omega

theorem peerWalk_fuel_bound (m : HMap) (sel : String) (rootId : Nat)
    (seen : List Nat) (hm : MapInv rootId seen m) (hroot : rootId ∉ seen) :
    ∀ (n f₁ f₂ : Nat) (cur : NodeRef), n < f₁ → n < f₂ →
      (hmFind m cur.id = none ∨
        (cur.id ∈ seen ∧ seen.length - List.indexOf cur.id seen ≤ n)) →
      peerWalk m sel f₁ cur = peerWalk m sel f₂ cur ∧
        peerWalk m sel f₁ cur ≠ .gas := by
  intro n
  induction n with
  | zero =>
    intro f₁ f₂ cur h₁ h₂ hc
    obtain ⟨a, rfl⟩ : ∃ a, f₁ = a + 1 := ⟨f₁ - 1, by omega⟩
    obtain ⟨b, rfl⟩ : ∃ b, f₂ = b + 1 := ⟨f₂ - 1, by omega⟩
    rcases hc with hc | ⟨hmem, hlen⟩
    · simp [peerWalk, hc]
    · have := List.indexOf_lt_length.mpr hmem
      omega
  | succ n ih =>
    intro f₁ f₂ cur h₁ h₂ hc
    obtain ⟨a, rfl⟩ : ∃ a, f₁ = a + 1 := ⟨f₁ - 1, by omega⟩
    obtain ⟨b, rfl⟩ : ∃ b, f₂ = b + 1 := ⟨f₂ - 1, by omega⟩
    rcases hf : hmFind m cur.id with _ | e
    · simp [peerWalk, hf]
    · have hcur := hm cur.id e hf
      by_cases hsw : startsWithJS sel (jsSelector e.super.selector) = true
      · simp [peerWalk, hf, hsw]
      · rw [Bool.not_eq_true] at hsw
        simp only [peerWalk, hf, hsw, Bool.false_eq_true, if_false]
        rcases hcur.2 with hr | ⟨hmem', hlt⟩
        · have hnone : hmFind m e.super.id = none :=
            hr ▸ MapInv_root_none rootId seen m hm hroot
          exact ih a b e.super (by omega) (by omega) (Or.inl hnone)
        · apply ih a b e.super (by omega) (by omega)
          right
          refine ⟨hmem', ?_⟩
          rcases hc with hc | ⟨hcm, hclen⟩
          · rw [hc] at hf
            cases hf
          · have h3 := List.indexOf_lt_length.mpr hmem'
            omega

theorem peerWalk_found (m : HMap) (sel : String) :
    ∀ (f : Nat) (cur : NodeRef) (e : Entry), peerWalk m sel f cur = .found e →
      ∃ c : Nat, hmFind m c = some e := by
  intro f
  induction f with
  | zero =>
    intro cur e h
    simp [peerWalk] at h
  | succ f ih =>
    intro cur e h
    simp only [peerWalk] at h
    rcases hf : hmFind m cur.id with _ | e'
    · rw [hf] at h
      simp at h
    · rw [hf] at h
      dsimp only at h
      by_cases hsw : startsWithJS sel (jsSelector e'.super.selector) = true
      · rw [if_pos hsw] at h
        cases h
        exact ⟨cur.id, hf⟩
      · rw [if_neg hsw] at h
        exact ih e'.super e h

theorem hierarchicalSelectorsLevel_write (fuel : Nat) (m : HMap)
    (node : NodeData) (prev : Option NodeData) (L : Int) :
    (hierarchicalSelectorsLevel fuel m node prev L).2 = none ∨
    ∃ e : Entry, (hierarchicalSelectorsLevel fuel m node prev L).2 = some e ∧
      ((∃ p, prev = some p ∧ e.super.id = p.id) ∨
        ∃ e' : Entry, (∃ c : Nat, hmFind m c = some e') ∧ e.super = e'.super) := by
  rcases prev with _ | p
  · exact Or.inl rfl
  · simp only [hierarchicalSelectorsLevel]
    split
    · exact Or.inl rfl
    · split
      · exact Or.inr ⟨_, rfl, Or.inl ⟨p, rfl, rfl⟩⟩
      · rcases hw : peerWalk m (jsSelector node.selector) fuel
            ⟨p.id, p.selector⟩ with e' | _ | _
        · exact Or.inr ⟨_, rfl, Or.inr ⟨e', peerWalk_found m _ fuel _ e' hw, rfl⟩⟩
        · exact Or.inl rfl
        · exact Or.inl rfl

theorem processNode_write_super (cfg : Config) (rootId fuel : Nat)
    (st : RunState) (v : Ctx) (seen : List Nat)
    (hanc : ∀ a ∈ v.ancestors, a.id ∈ seen)
    (hprev : ∀ p, v.prev = some p → p.id ∈ seen)
    (hm : MapInv rootId seen st.map) :
    (processNode cfg rootId fuel st v).map = st.map ∨
    ∃ e : Entry, (processNode cfg rootId fuel st v).map
        = (v.data.id, e) :: st.map ∧
      (e.super.id ∈ seen ∨ e.super.id = rootId) := by
  unfold processNode
  split
  · exact Or.inl rfl
  split
  · exact Or.inl rfl
  by_cases hh : cfg.hierarchicalSelectors = true
  · simp only [hh, if_true]
    rcases hierarchicalSelectorsLevel_write fuel st.map v.data v.prev
        (indentationLevel cfg st.map v) with hw | ⟨e, hw, hsup⟩
    · rcases finishNode_map_cases cfg _ _ st v with ⟨_, h⟩ | ⟨e, he, h⟩
      · exact Or.inl h
      · rw [hw] at he
        cases he
    · rcases finishNode_map_cases cfg
          (hierarchicalSelectorsLevel fuel st.map v.data v.prev
            (indentationLevel cfg st.map v)).1
          (hierarchicalSelectorsLevel fuel st.map v.data v.prev
            (indentationLevel cfg st.map v)).2 st v with ⟨he2, _⟩ | ⟨e2, he2, h⟩
      · rw [hw] at he2
        cases he2
      · rw [hw] at he2
        cases he2
        refine Or.inr ⟨⟨e.super, e.level⟩, h, ?_⟩
        rcases hsup with ⟨p, hp, hid⟩ | ⟨e', ⟨c, hc⟩, hs⟩
        · exact Or.inl (hid ▸ hprev p hp)
        · rw [hs]
          rcases (hm c e' hc).2 with hr | ⟨hsm, _⟩
          · exact Or.inr hr
          · exact Or.inl hsm
  · simp only [hh, Bool.false_eq_true, if_false]
    rcases finishNode_map_cases cfg (indentationLevel cfg st.map v)
        (some ⟨parentRef rootId v, indentationLevel cfg st.map v⟩) st v
        with ⟨hcontra, _⟩ | ⟨e, he, h⟩
    · cases hcontra
    · cases he
      refine Or.inr ⟨_, h, ?_⟩
      unfold parentRef
      rcases ha : v.ancestors with _ | ⟨p, rest⟩
      · exact Or.inr rfl
      · exact Or.inl (hanc p (by rw [ha]; exact List.mem_cons_self p rest))

theorem processNode_MapInv (cfg : Config) (rootId fuel : Nat)
    (st : RunState) (v : Ctx) (seen : List Nat)
    (hm : MapInv rootId seen st.map)
    (hfresh : v.data.id ∉ seen) (_hne : v.data.id ≠ rootId)
    (hanc : ∀ a ∈ v.ancestors, a.id ∈ seen)
    (hprev : ∀ p, v.prev = some p → p.id ∈ seen) :
    MapInv rootId (v.data.id :: seen) (processNode cfg rootId fuel st v).map := by
  rcases processNode_write_super cfg rootId fuel st v seen hanc hprev hm
      with h | ⟨e, h, hsup⟩
  · rw [h]
    exact MapInv_cons rootId seen st.map v.data.id hm hfresh
  · rw [h]
    intro k e' hk
    rw [hmFind_cons] at hk
    by_cases hkv : v.data.id = k
    · rw [if_pos hkv] at hk
      have hee : e = e' := by injection hk
      subst hee
      subst hkv
      refine ⟨List.mem_cons_self _ _, ?_⟩
      rcases hsup with hs | hs
      · have hsv : v.data.id ≠ e.super.id := fun hh => hfresh (hh ▸ hs)
        refine Or.inr ⟨List.mem_cons_of_mem _ hs, ?_⟩
        rw [List.indexOf_cons_self, List.indexOf_cons_ne seen hsv]
        omega
      · exact Or.inl hs
    · rw [if_neg hkv] at hk
      exact MapInv_cons rootId seen st.map v.data.id hm hfresh k e' hk

theorem runFrom_MapInv (cfg : Config) (rootId fuel : Nat) :
    ∀ (l : List Ctx) (seen : List Nat) (st : RunState),
      wfVisitFrom rootId seen l = true → MapInv rootId seen st.map →
      MapInv rootId ((ctxIds l).reverse ++ seen)
        (runFrom cfg rootId fuel st l).map := by
  intro l
  induction l with
  | nil =>
    intro seen st _ hm
    simpa [ctxIds] using hm
  | cons v rest ih =>
    intro seen st h hm
    obtain ⟨h1, h2, h3, h4, h5⟩ := (wfVisitFrom_cons rootId seen v rest).mp h
    have step := processNode_MapInv cfg rootId fuel st v seen hm h1 h2 h3 h4
    have tail := ih (v.data.id :: seen) (processNode cfg rootId fuel st v) h5 step
    have hre : ctxIds (v :: rest) = v.data.id :: ctxIds rest := rfl
    rw [hre, List.reverse_cons, List.append_assoc]
    exact tail

theorem hierarchicalSelectorsLevel_fuel (m : HMap) (node : NodeData)
    (prev : Option NodeData) (L : Int) (rootId : Nat) (seen : List Nat)
    (hm : MapInv rootId seen m) (hroot : rootId ∉ seen)
    (hprev : ∀ p, prev = some p → p.id ∈ seen)
    (f₁ f₂ : Nat) (h₁ : seen.length < f₁) (h₂ : seen.length < f₂) :
    hierarchicalSelectorsLevel f₁ m node prev L
      = hierarchicalSelectorsLevel f₂ m node prev L := by
  rcases prev with _ | p
  · rfl
  · simp only [hierarchicalSelectorsLevel]
    split
    · rfl
    · split
      · rfl
      · have hwalk := (peerWalk_fuel_bound m (jsSelector node.selector) rootId
          seen hm hroot seen.length f₁ f₂ ⟨p.id, p.selector⟩ h₁ h₂
          (Or.inr ⟨hprev p rfl, by omega⟩)).1
        rw [hwalk]

theorem processNode_fuel (cfg : Config) (rootId : Nat) (st : RunState)
    (v : Ctx) (seen : List Nat)
    (hm : MapInv rootId seen st.map) (hroot : rootId ∉ seen)
    (hprev : ∀ p, v.prev = some p → p.id ∈ seen)
    (f₁ f₂ : Nat) (h₁ : seen.length < f₁) (h₂ : seen.length < f₂) :
    processNode cfg rootId f₁ st v = processNode cfg rootId f₂ st v := by
  unfold processNode
  split
  · rfl
  split
  · rfl
  by_cases hh : cfg.hierarchicalSelectors = true
  · simp only [hh, if_true]
    rw [hierarchicalSelectorsLevel_fuel st.map v.data v.prev
      (indentationLevel cfg st.map v) rootId seen hm hroot hprev f₁ f₂ h₁ h₂]
  · simp only [hh, Bool.false_eq_true, if_false]

theorem runFrom_fuel_aux (cfg : Config) (rootId : Nat) :
    ∀ (l : List Ctx) (seen : List Nat) (st : RunState) (f₁ f₂ : Nat),
      wfVisitFrom rootId seen l = true → MapInv rootId seen st.map →
      rootId ∉ seen →
      seen.length + l.length < f₁ → seen.length + l.length < f₂ →
      runFrom cfg rootId f₁ st l = runFrom cfg rootId f₂ st l := by
  intro l
  induction l with
  | nil => intro seen st f₁ f₂ _ _ _ _ _; rfl
  | cons v rest ih =>
    intro seen st f₁ f₂ h hm hroot hf₁ hf₂
    obtain ⟨h1, h2, h3, h4, h5⟩ := (wfVisitFrom_cons rootId seen v rest).mp h
    have hstep : processNode cfg rootId f₁ st v = processNode cfg rootId f₂ st v :=
      processNode_fuel cfg rootId st v seen hm hroot h4 f₁ f₂
        (by simp at hf₁ ⊢; omega) (by simp at hf₂ ⊢; omega)
    show runFrom cfg rootId f₁ (processNode cfg rootId f₁ st v) rest
        = runFrom cfg rootId f₂ (processNode cfg rootId f₂ st v) rest
    rw [hstep]
    exact ih (v.data.id :: seen) (processNode cfg rootId f₂ st v) f₁ f₂ h5
      (processNode_MapInv cfg rootId f₂ st v seen hm h1 h2 h3 h4)
      (by simp only [List.mem_cons, not_or]; exact ⟨fun hh => h2 hh.symm, hroot⟩)
      (by simp at hf₁ ⊢; omega) (by simp at hf₂ ⊢; omega)

/-- C10: the peer-search walk terminates throughout every traversal:
the hierarchy map the run builds satisfies the invariant that each
entry's superordinate is the root or a strictly earlier-visited node
(`MapInv`), and consequently the whole run is unchanged under any
sufficiently large fuel for the walk (the walk always ends in a match
or at a candidate with no entry, never by exhaustion). -/
theorem peer_search_terminates (cfg : Config) (rootId : Nat) (l : List Ctx)
    (h : wfVisitFrom rootId [] l = true) :
    MapInv rootId ((ctxIds l).reverse) (runCheck cfg rootId l []).map ∧
    ∀ f₁ f₂ : Nat, l.length < f₁ → l.length < f₂ →
      runFrom cfg rootId f₁ ⟨false, [], []⟩ l
        = runFrom cfg rootId f₂ ⟨false, [], []⟩ l := by
  constructor
  · have hres := runFrom_MapInv cfg rootId (l.length + 1) l [] ⟨false, [], []⟩ h
      (MapInv_nil rootId [])
    simpa using hres
  · intro f₁ f₂ h₁ h₂
    exact runFrom_fuel_aux cfg rootId l [] ⟨false, [], []⟩ f₁ f₂ h
      (MapInv_nil rootId []) (by simp) (by simpa) (by simpa)

theorem peer_search_terminates_witness :
    runFrom cfgHier 99 5 ⟨false, [], []⟩ hierSibs
      = runFrom cfgHier 99 6 ⟨false, [], []⟩ hierSibs :=
  (peer_search_terminates cfgHier 99 hierSibs (by decide)).2 5 6
    (by decide) (by decide)

theorem indentationLevelAux_congr (cfg : Config) (m m' : HMap) :
    ∀ (anc : List NodeData) (ntype : String) (L : Int),
      (∀ a ∈ anc, hmFind m a.id = hmFind m' a.id) →
      indentationLevelAux cfg m ntype anc L
        = indentationLevelAux cfg m' ntype anc L := by
  intro anc
  induction anc with
  | nil => intro _ _ _; rfl
  | cons p rest ih =>
    intro ntype L hh
    simp only [indentationLevelAux]
    rw [hh p (List.mem_cons_self p rest),
      ih p.type (L + 1) (fun a ha => hh a (List.mem_cons_of_mem p ha))]

theorem peerWalk_congr (m m' : HMap) (sel : String) (S : List Nat)
    (hagree : ∀ k ∈ S, hmFind m k = hmFind m' k)
    (hclosed : ∀ k ∈ S, ∀ e : Entry, hmFind m k = some e → e.super.id ∈ S) :
    ∀ (f : Nat) (cur : NodeRef), cur.id ∈ S →
      peerWalk m sel f cur = peerWalk m' sel f cur := by
  intro f
  induction f with
  | zero => intro cur _; rfl
  | succ f ih =>
    intro cur hcur
    simp only [peerWalk]
    rw [← hagree cur.id hcur]
    rcases hf : hmFind m cur.id with _ | e
    · rfl
    · dsimp only
      split
      · rfl
      · exact ih e.super (hclosed cur.id hcur e hf)

theorem hierarchicalSelectorsLevel_congr (m m' : HMap) (node : NodeData)
    (prev : Option NodeData) (L : Int) (S : List Nat) (fuel : Nat)
    (hagree : ∀ k ∈ S, hmFind m k = hmFind m' k)
    (hclosed : ∀ k ∈ S, ∀ e : Entry, hmFind m k = some e → e.super.id ∈ S)
    (hprev : ∀ p, prev = some p → p.id ∈ S) :
    hierarchicalSelectorsLevel fuel m node prev L
      = hierarchicalSelectorsLevel fuel m' node prev L := by
  rcases prev with _ | p
  · rfl
  · simp only [hierarchicalSelectorsLevel]
    split
    · rfl
    · rw [← hagree p.id (hprev p rfl),
        peerWalk_congr m m' (jsSelector node.selector) S hagree hclosed fuel
          ⟨p.id, p.selector⟩ (hprev p rfl)]

theorem finishNode_mirror (cfg : Config) (L : Int) (w : Option Entry)
    (st₁ st₂ : RunState) (v : Ctx) (hv : st₂.viols = st₁.viols) :
    (finishNode cfg L w st₂ v).broken = (finishNode cfg L w st₁ v).broken ∧
    (finishNode cfg L w st₂ v).viols = (finishNode cfg L w st₁ v).viols ∧
    ((w = none ∧ (finishNode cfg L w st₂ v).map = st₂.map ∧
        (finishNode cfg L w st₁ v).map = st₁.map) ∨
      ∃ e : Entry, w = some e ∧
        (finishNode cfg L w st₂ v).map = (v.data.id, e) :: st₂.map ∧
        (finishNode cfg L w st₁ v).map = (v.data.id, e) :: st₁.map) := by
  refine ⟨rfl, ?_, ?_⟩
  · unfold finishNode
    dsimp only
    rw [hv]
  · rcases w with _ | e
    · exact Or.inl ⟨rfl, rfl, rfl⟩
    · exact Or.inr ⟨e, rfl, rfl, rfl⟩

theorem processNode_mirror (cfg : Config) (rootId fuel : Nat)
    (st₁ st₂ : RunState) (v : Ctx) (S : List Nat)
    (hb : st₂.broken = st₁.broken) (hv : st₂.viols = st₁.viols)
    (hagree : ∀ k ∈ S, hmFind st₂.map k = hmFind st₁.map k)
    (hclosed : ∀ k : Nat, ∀ e : Entry,
      hmFind st₁.map k = some e → e.super.id ∈ S)
    (hanc : ∀ a ∈ v.ancestors, a.id ∈ S)
    (hprev : ∀ p, v.prev = some p → p.id ∈ S) :
    (processNode cfg rootId fuel st₂ v).broken
        = (processNode cfg rootId fuel st₁ v).broken ∧
    (processNode cfg rootId fuel st₂ v).viols
        = (processNode cfg rootId fuel st₁ v).viols ∧
    (((processNode cfg rootId fuel st₂ v).map = st₂.map ∧
        (processNode cfg rootId fuel st₁ v).map = st₁.map) ∨
      ∃ e : Entry,
        (processNode cfg rootId fuel st₂ v).map = (v.data.id, e) :: st₂.map ∧
        (processNode cfg rootId fuel st₁ v).map = (v.data.id, e) :: st₁.map) := by
  unfold processNode
  simp only [hb]
  split
  · exact ⟨hb, hv, Or.inl ⟨rfl, rfl⟩⟩
  split
  · exact ⟨hb, hv, Or.inl ⟨rfl, rfl⟩⟩
  have hiL : indentationLevel cfg st₂.map v = indentationLevel cfg st₁.map v := by
    unfold indentationLevel
    exact indentationLevelAux_congr cfg st₂.map st₁.map v.ancestors v.data.type 0
      (fun a ha => hagree a.id (hanc a ha))
  have hclosed₂ : ∀ k ∈ S, ∀ e : Entry,
      hmFind st₂.map k = some e → e.super.id ∈ S :=
    fun k hk e he => hclosed k e (by rw [← hagree k hk]; exact he)
  have hLW : (if cfg.hierarchicalSelectors then
        hierarchicalSelectorsLevel fuel st₂.map v.data v.prev
          (indentationLevel cfg st₂.map v)
      else (indentationLevel cfg st₂.map v,
        some ⟨parentRef rootId v, indentationLevel cfg st₂.map v⟩))
      = (if cfg.hierarchicalSelectors then
        hierarchicalSelectorsLevel fuel st₁.map v.data v.prev
          (indentationLevel cfg st₁.map v)
      else (indentationLevel cfg st₁.map v,
        some ⟨parentRef rootId v, indentationLevel cfg st₁.map v⟩)) := by
    rw [hiL]
    by_cases hh : cfg.hierarchicalSelectors = true
    · simp only [hh, if_true]
      exact hierarchicalSelectorsLevel_congr st₂.map st₁.map v.data v.prev _
        S fuel hagree hclosed₂ hprev
    · simp only [hh, Bool.false_eq_true, if_false]
  rw [hLW]
  obtain ⟨g1, g2, g3⟩ := finishNode_mirror cfg
    (if cfg.hierarchicalSelectors then
        hierarchicalSelectorsLevel fuel st₁.map v.data v.prev
          (indentationLevel cfg st₁.map v)
      else (indentationLevel cfg st₁.map v,
        some ⟨parentRef rootId v, indentationLevel cfg st₁.map v⟩)).1
    (if cfg.hierarchicalSelectors then
        hierarchicalSelectorsLevel fuel st₁.map v.data v.prev
          (indentationLevel cfg st₁.map v)
      else (indentationLevel cfg st₁.map v,
        some ⟨parentRef rootId v, indentationLevel cfg st₁.map v⟩)).2
    st₁ st₂ v hv
  refine ⟨g1, g2, ?_⟩
  rcases g3 with ⟨_, h2, h1⟩ | ⟨e, _, h2, h1⟩
  · exact Or.inl ⟨h2, h1⟩
  · exact Or.inr ⟨e, h2, h1⟩

theorem runFrom_agree (cfg : Config) (rootId fuel : Nat) :
    ∀ (l : List Ctx) (seen : List Nat) (st₁ st₂ : RunState),
      wfVisitFrom rootId seen l = true → rootId ∉ seen →
      st₂.broken = st₁.broken → st₂.viols = st₁.viols →
      (∀ k, k ∈ seen ∨ k = rootId → hmFind st₂.map k = hmFind st₁.map k) →
      (∀ k ∈ ctxIds l, hmFind st₂.map k = none) →
      MapInv rootId seen st₁.map →
      (runFrom cfg rootId fuel st₂ l).broken
          = (runFrom cfg rootId fuel st₁ l).broken ∧
        (runFrom cfg rootId fuel st₂ l).viols
          = (runFrom cfg rootId fuel st₁ l).viols := by
  intro l
  induction l with
  | nil => intro seen st₁ st₂ _ _ hb hv _ _ _; exact ⟨hb, hv⟩
  | cons v rest ih =>
    intro seen st₁ st₂ h hroot hb hv hag hfut hm
    obtain ⟨h1, h2, h3, h4, h5⟩ := (wfVisitFrom_cons rootId seen v rest).mp h
    have hagreeS : ∀ k ∈ rootId :: seen,
        hmFind st₂.map k = hmFind st₁.map k := by
      intro k hk
      rcases List.mem_cons.mp hk with rfl | hk
      · exact hag k (Or.inr rfl)
      · exact hag k (Or.inl hk)
    have hclosedS : ∀ k : Nat, ∀ e : Entry,
        hmFind st₁.map k = some e → e.super.id ∈ rootId :: seen := by
      intro k e he
      rcases (hm k e he).2 with hr | ⟨hsm, _⟩
      · exact hr ▸ List.mem_cons_self _ _
      · exact List.mem_cons_of_mem _ hsm
    have step := processNode_mirror cfg rootId fuel st₁ st₂ v (rootId :: seen)
      hb hv hagreeS hclosedS
      (fun a ha => List.mem_cons_of_mem _ (h3 a ha))
      (fun p hp => List.mem_cons_of_mem _ (h4 p hp))
    have hst1none : hmFind st₁.map v.data.id = none := by
      rcases hf : hmFind st₁.map v.data.id with _ | e
      · rfl
      · exact absurd (hm v.data.id e hf).1 h1
    have hvnotin : v.data.id ∉ ctxIds rest :=
      (wf_seen_disjoint rootId rest (v.data.id :: seen) h5).1 v.data.id
        (List.mem_cons_self _ _)
    have hag' : ∀ k, k ∈ v.data.id :: seen ∨ k = rootId →
        hmFind (processNode cfg rootId fuel st₂ v).map k
          = hmFind (processNode cfg rootId fuel st₁ v).map k := by
      intro k hk
      rcases step.2.2 with ⟨m2, m1⟩ | ⟨e, m2, m1⟩
      · rw [m2, m1]
        rcases hk with hk | rfl
        · rcases List.mem_cons.mp hk with rfl | hk
          · rw [hst1none, hfut v.data.id (List.mem_cons_self _ _)]
          · exact hag k (Or.inl hk)
        · exact hag k (Or.inr rfl)
      · rw [m2, m1, hmFind_cons, hmFind_cons]
        by_cases hkv : v.data.id = k
        · rw [if_pos hkv, if_pos hkv]
        · rw [if_neg hkv, if_neg hkv]
          rcases hk with hk | rfl
          · rcases List.mem_cons.mp hk with rfl | hk
            · exact absurd rfl hkv
            · exact hag k (Or.inl hk)
          · exact hag k (Or.inr rfl)
    have hfut' : ∀ k ∈ ctxIds rest,
        hmFind (processNode cfg rootId fuel st₂ v).map k = none := by
      intro k hk
      have hkv : k ≠ v.data.id := fun hh => hvnotin (hh ▸ hk)
      rw [processNode_map_other cfg rootId fuel st₂ v k hkv]
      exact hfut k (List.mem_cons_of_mem _ hk)
    have hres := ih (v.data.id :: seen)
      (processNode cfg rootId fuel st₁ v) (processNode cfg rootId fuel st₂ v)
      h5
      (by simp only [List.mem_cons, not_or]
          exact ⟨fun hh => h2 hh.symm, hroot⟩)
      step.1 step.2.1 hag' hfut'
      (processNode_MapInv cfg rootId fuel st₁ v seen hm h1 h2 h3 h4)
    exact hres

theorem runFrom_mirror (cfg : Config) (rootId fuel : Nat) :
    ∀ (l : List Ctx) (seen : List Nat) (st₁ st₂ : RunState),
      wfVisitFrom rootId seen l = true → rootId ∉ seen →
      st₂.broken = st₁.broken → st₂.viols = st₁.viols →
      (∀ k, hmFind st₂.map k = hmFind (runFrom cfg rootId fuel st₁ l).map k) →
      MapInv rootId seen st₁.map →
      (runFrom cfg rootId fuel st₂ l).broken
          = (runFrom cfg rootId fuel st₁ l).broken ∧
        (runFrom cfg rootId fuel st₂ l).viols
          = (runFrom cfg rootId fuel st₁ l).viols := by
  intro l
  induction l with
  | nil => intro seen st₁ st₂ _ _ hb hv _ _; exact ⟨hb, hv⟩
  | cons v rest ih =>
    intro seen st₁ st₂ h hroot hb hv hinv hm
    obtain ⟨h1, h2, h3, h4, h5⟩ := (wfVisitFrom_cons rootId seen v rest).mp h
    have hsd := wf_seen_disjoint rootId (v :: rest) seen h
    have hagreeS : ∀ k ∈ rootId :: seen,
        hmFind st₂.map k = hmFind st₁.map k := by
      intro k hk
      have hknotin : k ∉ ctxIds (v :: rest) := by
        rcases List.mem_cons.mp hk with rfl | hk
        · exact hsd.2
        · exact hsd.1 k hk
      rw [hinv k, runFrom_map_other cfg rootId fuel (v :: rest) st₁ k hknotin]
    have hclosedS : ∀ k : Nat, ∀ e : Entry,
        hmFind st₁.map k = some e → e.super.id ∈ rootId :: seen := by
      intro k e he
      rcases (hm k e he).2 with hr | ⟨hsm, _⟩
      · exact hr ▸ List.mem_cons_self _ _
      · exact List.mem_cons_of_mem _ hsm
    have step := processNode_mirror cfg rootId fuel st₁ st₂ v (rootId :: seen)
      hb hv hagreeS hclosedS
      (fun a ha => List.mem_cons_of_mem _ (h3 a ha))
      (fun p hp => List.mem_cons_of_mem _ (h4 p hp))
    have hvnotin : v.data.id ∉ ctxIds rest :=
      (wf_seen_disjoint rootId rest (v.data.id :: seen) h5).1 v.data.id
        (List.mem_cons_self _ _)
    have hinv' : ∀ k,
        hmFind (processNode cfg rootId fuel st₂ v).map k
          = hmFind (runFrom cfg rootId fuel
              (processNode cfg rootId fuel st₁ v) rest).map k := by
      intro k
      rcases step.2.2 with ⟨m2, _⟩ | ⟨e, m2, m1⟩
      · rw [m2]
        exact hinv k
      · rw [m2, hmFind_cons]
        by_cases hkv : v.data.id = k
        · rw [if_pos hkv]
        
          rw [runFrom_map_other cfg rootId fuel rest
              (processNode cfg rootId fuel st₁ v) k (hkv ▸ hvnotin),
            m1, hmFind_cons, if_pos hkv]
        · rw [if_neg hkv]
          exact hinv k
    exact ih (v.data.id :: seen)
      (processNode cfg rootId fuel st₁ v) (processNode cfg rootId fuel st₂ v)
      h5
      (by simp only [List.mem_cons, not_or]
          exact ⟨fun hh => h2 hh.symm, hroot⟩)
      step.1 step.2.1 hinv'
      (processNode_MapInv cfg rootId fuel st₁ v seen hm h1 h2 h3 h4)

/-- C1: the violations an invocation of the check produces do not
depend on hierarchy state recorded by an earlier invocation of the same
check function: running on the same tree after a previous run (whose
final hierarchy map is still in place), or on a tree with entirely
fresh nodes, observably matches the run from an empty map. -/
theorem check_isolation (cfg : Config) (root₁ root₂ : Nat)
    (l₁ l₂ : List Ctx)
    (h₁ : wfVisitFrom root₁ [] l₁ = true)
    (h₂ : wfVisitFrom root₂ [] l₂ = true)
    (hsep : (l₂ = l₁ ∧ root₂ = root₁) ∨
      ((∀ k ∈ ctxIds l₂, k ∉ ctxIds l₁) ∧ root₂ ∉ ctxIds l₁)) :
    observed (runCheck cfg root₂ l₂ (runCheck cfg root₁ l₁ []).map)
      = observed (runCheck cfg root₂ l₂ []) := by
  rcases hsep with ⟨rfl, rfl⟩ | ⟨hdisj, hroot⟩
  · have hres := runFrom_mirror cfg root₂ (l₂.length + 1) l₂ []
      ⟨false, [], []⟩ ⟨false, [], (runCheck cfg root₂ l₂ []).map⟩
      h₁ (by simp) rfl rfl (fun k => rfl) (MapInv_nil _ _)
    show ((runFrom cfg root₂ (l₂.length + 1)
        ⟨false, [], (runCheck cfg root₂ l₂ []).map⟩ l₂).broken,
      (runFrom cfg root₂ (l₂.length + 1)
        ⟨false, [], (runCheck cfg root₂ l₂ []).map⟩ l₂).viols)
      = ((runFrom cfg root₂ (l₂.length + 1) ⟨false, [], []⟩ l₂).broken,
        (runFrom cfg root₂ (l₂.length + 1) ⟨false, [], []⟩ l₂).viols)
    rw [hres.1, hres.2]
  · have hM : MapInv root₁ ((ctxIds l₁).reverse)
        (runCheck cfg root₁ l₁ []).map := by
      have := runFrom_MapInv cfg root₁ (l₁.length + 1) l₁ [] ⟨false, [], []⟩
        h₁ (MapInv_nil _ _)
      simpa using this
    have hnone : ∀ k, k ∉ ctxIds l₁ →
        hmFind (runCheck cfg root₁ l₁ []).map k = none := by
      intro k hk
      rcases hf : hmFind (runCheck cfg root₁ l₁ []).map k with _ | e
      · rfl
      · have hmem := (hM k e hf).1
        rw [List.mem_reverse] at hmem
        exact absurd hmem hk
    have hres := runFrom_agree cfg root₂ (l₂.length + 1) l₂ []
      ⟨false, [], []⟩ ⟨false, [], (runCheck cfg root₁ l₁ []).map⟩
      h₂ (by simp) rfl rfl
      (by intro k hk
          rcases hk with hk | rfl
          · simp at hk
          · rw [hnone k hroot]
            rfl)
      (fun k hk => hnone k (hdisj k hk))
      (MapInv_nil _ _)
    show ((runFrom cfg root₂ (l₂.length + 1)
        ⟨false, [], (runCheck cfg root₁ l₁ []).map⟩ l₂).broken,
      (runFrom cfg root₂ (l₂.length + 1)
        ⟨false, [], (runCheck cfg root₁ l₁ []).map⟩ l₂).viols)
      = ((runFrom cfg root₂ (l₂.length + 1) ⟨false, [], []⟩ l₂).broken,
        (runFrom cfg root₂ (l₂.length + 1) ⟨false, [], []⟩ l₂).viols)
    rw [hres.1, hres.2]

theorem check_isolation_witness :
    observed (runCheck cfgBlock 99 nestedRules
        (runCheck cfgBlock 99 nestedRules []).map)
      = observed (runCheck cfgBlock 99 nestedRules []) :=
  check_isolation cfgBlock 99 99 nestedRules nestedRules
    (by decide) (by decide) (Or.inl ⟨rfl, rfl⟩)

theorem violation_message_format_witness :
    (⟨"Expected indentation of 1 tab at line 2", 2, 1⟩ : Violation)
        ∈ (⟨false, [], []⟩ : RunState).viols ∨
      ∃ lvl : Int,
        (⟨"Expected indentation of 1 tab at line 2", 2, 1⟩ : Violation).message =
          "Expected indentation of " ++ toString (specUnitCount cfgTab lvl) ++ " "
            ++ warningWord cfgTab
            ++ (if specUnitCount cfgTab lvl = 1 then "" else "s")
            ++ " at line "
            ++ toString
              (⟨"Expected indentation of 1 tab at line 2", 2, 1⟩ : Violation).line :=
  (violation_message_format cfgTab 99 3 ⟨false, [], []⟩
      ⟨ruleB, [ruleA], none, false⟩).1
    ⟨"Expected indentation of 1 tab at line 2", 2, 1⟩ (by decide)

end Indentation
